import Mathlib

/-!
Shallow embedding of the reasoning-path engine of `my_got_bot`:
the thought tree (`src/my_got_bot/brain_graph.py`), the linear chain
(`BrainText`, modelled from the spec since its source is not in the
repository snapshot) and the bounded iterative driver
(`src/my_got_bot/main.py`), together with proofs settling the claims
about them.

Modelling conventions:
- Python `uuid.uuid4()` identifiers are opaque, unique and fresh; they are
  modelled by a counter `next_id` carried in the graph state, so every
  freshly created node gets a key that never collided with earlier keys.
- Python `dict` preserves insertion order and a fresh key is appended at
  the end; `nodes` is therefore an insertion-ordered association list.
- Python `float` scores are modelled as `Rat`: the operations the claims
  touch only compare scores, never do rounding-sensitive arithmetic.
- `datetime.now().isoformat()` timestamps are omitted: no claim and no
  operation reads them.
- A Python method that mutates `self` and either returns a value or
  raises becomes a function returning the new state paired with
  `Except`; `raise` happens before any mutation in the source, so the
  error branches return the input state unchanged.
-/

/-- `NodeState` from `brain_graph.py`. -/
inductive NodeState where
  | pending
  | active
  | completed
  | pruned
deriving DecidableEq, Repr

/-- `ThoughtNode` from `brain_graph.py` (the timestamp field is omitted,
see the module comment; `metadata` is an opaque key-value bag). -/
structure ThoughtNode where
  id : Nat
  content : String
  parent_id : Option Nat
  children_ids : List Nat
  state : NodeState
  score : Rat
  depth : Nat
  metadata : List (String × String)
deriving DecidableEq, Repr

/-- `BrainGraph` from `brain_graph.py`: an insertion-ordered id-to-node
mapping plus the root reference and the construction parameters.
`next_id` models the supply of fresh `uuid4` identifiers. -/
structure BrainGraph where
  nodes : List (Nat × ThoughtNode)
  root_id : Option Nat
  max_depth : Nat
  max_branches : Nat
  prune_threshold : Rat
  next_id : Nat
deriving DecidableEq, Repr

/-- `BrainGraph.__init__`: empty mapping, no root. -/
def mkBrainGraph (max_depth max_branches : Nat) (prune_threshold : Rat) : BrainGraph :=
  ⟨[], none, max_depth, max_branches, prune_threshold, 0⟩

/-- First-match lookup in the association list, i.e. `self.nodes.get(id)`
(keys are unique in any reachable state, so first match is the match). -/
def lookupList : List (Nat × ThoughtNode) → Nat → Option ThoughtNode
  | [], _ => none
  | (k, v) :: rest, i => if k = i then some v else lookupList rest i

/-- Pointwise update of the entry with key `i`, keeping position and key:
the Python code mutates the node object in place inside the dict. -/
def updateEntry (l : List (Nat × ThoughtNode)) (i : Nat) (f : ThoughtNode → ThoughtNode) :
    List (Nat × ThoughtNode) :=
  l.map (fun pr => (pr.1, if pr.1 = i then f pr.2 else pr.2))

/-- `BrainGraph.create_root`: unconditionally creates a depth-0 node in
state Completed with no parent, points `root_id` at it and returns its
id.  The source performs no root-already-exists check. -/
def create_root (g : BrainGraph) (content : String) (score : Rat) : BrainGraph × Nat :=
  let node_id := g.next_id
  let n : ThoughtNode :=
    ⟨node_id, content, none, [], NodeState.completed, score, 0, []⟩
  ({ g with
      nodes := g.nodes ++ [(node_id, n)]
      root_id := some node_id
      next_id := node_id + 1 }, node_id)

/-- Error kinds raised by `BrainGraph.add_child` (`ValueError`s in the
source, distinguished by their messages). -/
inductive TreeError where
  | notFound
  | branchLimitExceeded
  | depthLimitExceeded
deriving DecidableEq, Repr

/-- `BrainGraph.add_child`: checks, in source order, that the parent
exists, that the parent has fewer than `max_branches` children and that
`parent.depth < max_depth`; on success creates an Active node at
`parent.depth + 1` and appends its id to the parent's child list.
All checks precede any mutation, so the error branches return the input
graph unchanged. -/
def add_child (g : BrainGraph) (parent_id : Nat) (content : String) (score : Rat)
    (metadata : List (String × String)) : BrainGraph × Except TreeError Nat :=
  match lookupList g.nodes parent_id with
  | none => (g, Except.error TreeError.notFound)
  | some parent =>
    if g.max_branches ≤ parent.children_ids.length then
      (g, Except.error TreeError.branchLimitExceeded)
    else if g.max_depth ≤ parent.depth then
      (g, Except.error TreeError.depthLimitExceeded)
    else
      let node_id := g.next_id
      let n : ThoughtNode :=
        ⟨node_id, content, some parent_id, [], NodeState.active, score,
         parent.depth + 1, metadata⟩
      ({ g with
          nodes := updateEntry g.nodes parent_id
                     (fun p => { p with children_ids := p.children_ids ++ [node_id] })
                   ++ [(node_id, n)]
          next_id := node_id + 1 }, Except.ok node_id)

/-- `BrainGraph.update_score`: sets the score of an existing node; a
silent no-op when the id is absent (`if node_id in self.nodes`). -/
def update_score (g : BrainGraph) (node_id : Nat) (new_score : Rat) : BrainGraph :=
  match lookupList g.nodes node_id with
  | none => g
  | some _ =>
    { g with nodes := updateEntry g.nodes node_id (fun n => { n with score := new_score }) }

/-- `BrainGraph.get_leaves`: nodes with no children, in mapping
(= insertion = creation) order, optionally excluding Pruned nodes. -/
def get_leaves (g : BrainGraph) (exclude_pruned : Bool) : List ThoughtNode :=
  let leaves := (g.nodes.map Prod.snd).filter (fun n => n.children_ids.isEmpty)
  if exclude_pruned then
    leaves.filter (fun n => decide (n.state ≠ NodeState.pruned))
  else leaves

/-- Python `max(leaves, key=lambda n: n.score)`: left fold that replaces
the current best only on a strictly greater score, so the first element
attaining the maximum wins. -/
def bestOf (h : ThoughtNode) (t : List ThoughtNode) : ThoughtNode :=
  t.foldl (fun acc n => if acc.score < n.score then n else acc) h

/-- `BrainGraph.get_best_leaf`: `None` when there is no non-pruned leaf,
otherwise the first non-pruned leaf of maximal score. -/
def get_best_leaf (g : BrainGraph) : Option ThoughtNode :=
  match get_leaves g true with
  | [] => none
  | h :: t => some (bestOf h t)

/-- One step of `BrainGraph.prune_low_scoring`: a node strictly below the
threshold and not yet Pruned becomes Pruned; every other node is kept. -/
def pruneNode (threshold : Rat) (n : ThoughtNode) : ThoughtNode :=
  if n.score < threshold ∧ n.state ≠ NodeState.pruned then
    { n with state := NodeState.pruned }
  else n

/-- `BrainGraph.prune_low_scoring`: marks low-scoring nodes Pruned;
`none` means the instance threshold `prune_threshold`.  Membership and
child lists are untouched. -/
def prune_low_scoring (g : BrainGraph) (threshold : Option Rat) : BrainGraph :=
  let t := threshold.getD g.prune_threshold
  { g with nodes := g.nodes.map (fun pr => (pr.1, pruneNode t pr.2)) }

/-- The parent-walk loop of `BrainGraph.get_path_to_node`, with explicit
fuel (the Python `while` loop terminates because parent links strictly
decrease `depth` in every reachable graph; `depth + 1` fuel suffices). -/
def pathLoop (g : BrainGraph) : Nat → Nat → List ThoughtNode
  | _, 0 => []
  | current, fuel + 1 =>
    match lookupList g.nodes current with
    | none => []
    | some n =>
      match n.parent_id with
      | none => [n]
      | some p => pathLoop g p fuel ++ [n]

/-- `BrainGraph.get_path_to_node`: empty for an absent id, otherwise the
root-to-node list built by walking parent links and prepending. -/
def get_path_to_node (g : BrainGraph) (node_id : Nat) : List ThoughtNode :=
  match lookupList g.nodes node_id with
  | none => []
  | some n => pathLoop g node_id (n.depth + 1)

/-- One public mutating call on the tree, for reasoning about call
sequences. -/
inductive TreeOp where
  | createRoot (content : String) (score : Rat)
  | addChild (parent : Nat) (content : String) (score : Rat) (metadata : List (String × String))
  | updateScore (id : Nat) (score : Rat)
  | prune (threshold : Option Rat)
deriving Repr

/-- Apply one call; a failing `add_child` leaves the state unchanged
(exactly what the source guarantees, since it raises before mutating). -/
def applyOp (g : BrainGraph) : TreeOp → BrainGraph
  | TreeOp.createRoot c s => (create_root g c s).1
  | TreeOp.addChild p c s md => (add_child g p c s md).1
  | TreeOp.updateScore i s => update_score g i s
  | TreeOp.prune t => prune_low_scoring g t

/-- Apply a sequence of calls from left to right. -/
def applyOps (ops : List TreeOp) (g : BrainGraph) : BrainGraph :=
  ops.foldl applyOp g

/-- Every key and every child reference is below the fresh-id counter:
new ids never collide with existing ones (`uuid4` freshness). -/
def FreshBound (g : BrainGraph) : Prop :=
  (∀ pr ∈ g.nodes, pr.1 < g.next_id ∧ ∀ c ∈ pr.2.children_ids, c < g.next_id)

/-- Mapping keys are pairwise distinct (Python dict keys). -/
def KeysNodup (g : BrainGraph) : Prop :=
  (g.nodes.map Prod.fst).Nodup

/-- Each node's `id` field equals its key in the mapping. -/
def IdMatch (g : BrainGraph) : Prop :=
  ∀ pr ∈ g.nodes, pr.2.id = pr.1

/-- Parent links are well-formed: the parent exists, the child sits one
level deeper, and the child's id occurs exactly once in the parent's
child list. -/
def StructOK (g : BrainGraph) : Prop :=
  ∀ pr ∈ g.nodes, ∀ p ∈ pr.2.parent_id,
    ∃ pn ∈ lookupList g.nodes p,
      pr.2.depth = pn.depth + 1 ∧ pn.children_ids.count pr.1 = 1

/-- No node exceeds the configured branching limit. -/
def BranchOK (g : BrainGraph) : Prop :=
  ∀ pr ∈ g.nodes, pr.2.children_ids.length ≤ g.max_branches

/-- The combined invariant preserved by every public tree operation. -/
def TreeInv (g : BrainGraph) : Prop :=
  FreshBound g ∧ KeysNodup g ∧ IdMatch g ∧ StructOK g ∧ BranchOK g

/-- A parentless node is the current root, and the current root, if any,
is a parentless node of the mapping.  (Holds whenever the root is
created once per tree instance, as the spec's lifecycle prescribes.) -/
def WellRooted (g : BrainGraph) : Prop :=
  (∀ pr ∈ g.nodes, pr.2.parent_id = none → g.root_id = some pr.1) ∧
  (∀ r ∈ g.root_id, ∃ rn ∈ lookupList g.nodes r, rn.parent_id = none)

/-- Every stored score lies in the closed interval from 0 to 1. -/
def ScoresOK (g : BrainGraph) : Prop :=
  ∀ pr ∈ g.nodes, 0 ≤ pr.2.score ∧ pr.2.score ≤ 1

/-- The caller-supplied score of one call lies in the interval from 0 to
1 (vacuous for pruning, which supplies no score). -/
def opScoreInRange : TreeOp → Prop
  | TreeOp.createRoot _ s => 0 ≤ s ∧ s ≤ 1
  | TreeOp.addChild _ _ s _ => 0 ≤ s ∧ s ≤ 1
  | TreeOp.updateScore _ s => 0 ≤ s ∧ s ≤ 1
  | TreeOp.prune _ => True

/-- Modelled from the spec: `BrainText` (module `brain`, imported by
`main.py` but absent from the repository snapshot) keeps an ordered
append-only sequence of thought texts (spec section 4.2, ChainState). -/
structure BrainText where
  steps : List String
deriving DecidableEq, Repr

/-- Modelled from the spec: `BrainText.add_step` appends to the end of
the sequence. -/
def BrainText.add_step (b : BrainText) (text : String) : BrainText :=
  ⟨b.steps ++ [text]⟩

/-- Modelled from the spec: `BrainText.get_chain` joins all entries with
a blank-line separator (spec section 4.2: "joins all entries with a
blank-line separator"); `main.py` splits this rendering on the same
separator. -/
def BrainText.get_chain (b : BrainText) : String :=
  String.intercalate "\n\n" b.steps

/-- Modelled from the spec: `BrainText.clear` empties the sequence. -/
def BrainText.clear (_ : BrainText) : BrainText :=
  ⟨[]⟩

/-- `brain.get_chain().split("\n\n")[-1]` from `main.py` line 94: the
piece after the final blank-line separator of the rendered chain
(Python `split` never yields an empty list, so the default is dead). -/
def lastParagraph (s : String) : String :=
  (s.splitOn "\n\n").getLastD ""

/-- `MAX_COT_ITERATIONS` from `config.py`. -/
def MAX_COT_ITERATIONS : Nat := 4

/-- Observable outcome of one reasoning session of the driver. -/
inductive SessionOutcome where
  | finalized (answer : String)
  | exhausted (fallback : String)
deriving DecidableEq, Repr

/-- The Chain-of-Thought loop of `main.py` (lines 63-98), one user
message: `remaining` iterations are left, `iteration` is the 1-based
iteration counter.  Each iteration calls the external thought generator
`gen` with the iteration number and the current chain rendering, appends
the response, and applies the terminal-answer detector `detect`
(`speak`, an external pure collaborator per spec section 6).  Returns the
outcome, the final chain, and the number of generator calls made. -/
def runLoop (gen : Nat → String → String) (detect : String → String × Bool) :
    Nat → Nat → BrainText → SessionOutcome × BrainText × Nat
  | 0, _, chain =>
    (SessionOutcome.exhausted (lastParagraph chain.get_chain), chain, 0)
  | remaining + 1, iteration, chain =>
    let response := gen iteration chain.get_chain
    let chain' := chain.add_step response
    let res := detect response
    if res.2 then
      (SessionOutcome.finalized res.1, chain', 1)
    else
      let r := runLoop gen detect remaining (iteration + 1) chain'
      (r.1, r.2.1, r.2.2 + 1)

/-- One full reasoning session: the loop started on a cleared chain with
the configured iteration budget. -/
def runSession (gen : Nat → String → String) (detect : String → String × Bool) :
    SessionOutcome × BrainText × Nat :=
  runLoop gen detect MAX_COT_ITERATIONS 1 ⟨[]⟩

instance (g : BrainGraph) : Decidable (FreshBound g) := by
  unfold FreshBound; infer_instance

instance (g : BrainGraph) : Decidable (KeysNodup g) := by
  unfold KeysNodup; infer_instance

instance (g : BrainGraph) : Decidable (IdMatch g) := by
  unfold IdMatch; infer_instance

instance (g : BrainGraph) : Decidable (StructOK g) := by
  unfold StructOK; infer_instance

instance (g : BrainGraph) : Decidable (BranchOK g) := by
  unfold BranchOK; infer_instance

instance (g : BrainGraph) : Decidable (TreeInv g) := by
  unfold TreeInv; infer_instance

instance (g : BrainGraph) : Decidable (WellRooted g) := by
  unfold WellRooted; infer_instance

instance (g : BrainGraph) : Decidable (ScoresOK g) := by
  unfold ScoresOK; infer_instance

instance (op : TreeOp) : Decidable (opScoreInRange op) := by
  unfold opScoreInRange; cases op <;> infer_instance

theorem lookupList_mem {l : List (Nat × ThoughtNode)} {i : Nat} {v : ThoughtNode}
    (h : lookupList l i = some v) : (i, v) ∈ l := by
  induction l with
  | nil => simp [lookupList] at h
  | cons hd tl ih =>
    obtain ⟨k, w⟩ := hd
    simp only [lookupList] at h
    by_cases hk : k = i
    · subst hk
      rw [if_pos rfl] at h
      injection h with h
      subst h
      exact List.mem_cons_self _ _
    · rw [if_neg hk] at h
      exact List.mem_cons_of_mem _ (ih h)

theorem lookupList_eq_none {l : List (Nat × ThoughtNode)} {i : Nat} :
    lookupList l i = none ↔ ∀ pr ∈ l, pr.1 ≠ i := by
  induction l with
  | nil => simp [lookupList]
  | cons hd tl ih =>
    obtain ⟨k, w⟩ := hd
    by_cases hk : k = i
    · subst hk
      simp [lookupList]
    · simp [lookupList, if_neg hk, ih, hk]

theorem lookupList_append_some {l₁ l₂ : List (Nat × ThoughtNode)} {i : Nat} {v : ThoughtNode}
    (h : lookupList l₁ i = some v) : lookupList (l₁ ++ l₂) i = some v := by
  induction l₁ with
  | nil => simp [lookupList] at h
  | cons hd tl ih =>
    obtain ⟨k, w⟩ := hd
    simp only [lookupList, List.cons_append] at h ⊢
    by_cases hk : k = i
    · rw [if_pos hk] at h ⊢; exact h
    · rw [if_neg hk] at h ⊢; exact ih h

theorem lookupList_append_none {l₁ l₂ : List (Nat × ThoughtNode)} {i : Nat}
    (h : lookupList l₁ i = none) : lookupList (l₁ ++ l₂) i = lookupList l₂ i := by
  induction l₁ with
  | nil => simp
  | cons hd tl ih =>
    obtain ⟨k, w⟩ := hd
    simp only [lookupList, List.cons_append] at h ⊢
    by_cases hk : k = i
    · rw [if_pos hk] at h; exact absurd h (by simp)
    · rw [if_neg hk] at h ⊢; exact ih h

theorem lookupList_map (l : List (Nat × ThoughtNode)) (F : Nat → ThoughtNode → ThoughtNode)
    (i : Nat) :
    lookupList (l.map (fun pr => (pr.1, F pr.1 pr.2))) i = (lookupList l i).map (F i) := by
  induction l with
  | nil => simp [lookupList]
  | cons hd tl ih =>
    obtain ⟨k, w⟩ := hd
    simp only [List.map_cons, lookupList]
    by_cases hk : k = i
    · subst hk; simp
    · rw [if_neg hk, if_neg hk]; exact ih

theorem updateEntry_eq_map (l : List (Nat × ThoughtNode)) (i : Nat)
    (f : ThoughtNode → ThoughtNode) :
    updateEntry l i f =
      l.map (fun pr => (pr.1, (fun k n => if k = i then f n else n) pr.1 pr.2)) := rfl

theorem lookupList_updateEntry_self {l : List (Nat × ThoughtNode)} {i : Nat}
    {f : ThoughtNode → ThoughtNode} :
    lookupList (updateEntry l i f) i = (lookupList l i).map f := by
  induction l with
  | nil => rfl
  | cons hd tl ih =>
    obtain ⟨k, w⟩ := hd
    by_cases hk : k = i
    · subst hk
      simp [updateEntry, lookupList]
    · simp only [updateEntry, List.map_cons, lookupList, if_neg hk] at ih ⊢
      exact ih

theorem lookupList_updateEntry_ne {l : List (Nat × ThoughtNode)} {i j : Nat}
    {f : ThoughtNode → ThoughtNode} (h : j ≠ i) :
    lookupList (updateEntry l i f) j = lookupList l j := by
  induction l with
  | nil => rfl
  | cons hd tl ih =>
    obtain ⟨k, w⟩ := hd
    by_cases hk : k = j
    · subst hk
      have hki : ¬ k = i := h
      simp [updateEntry, lookupList, if_neg hki]
    · simp only [updateEntry, List.map_cons, lookupList, if_neg hk] at ih ⊢
      exact ih

theorem updateEntry_keys (l : List (Nat × ThoughtNode)) (i : Nat)
    (f : ThoughtNode → ThoughtNode) :
    (updateEntry l i f).map Prod.fst = l.map Prod.fst := by
  rw [updateEntry_eq_map, List.map_map]
  rfl

theorem mem_updateEntry {l : List (Nat × ThoughtNode)} {i : Nat}
    {f : ThoughtNode → ThoughtNode} {pr : Nat × ThoughtNode}
    (h : pr ∈ updateEntry l i f) :
    ∃ q ∈ l, pr = (q.1, if q.1 = i then f q.2 else q.2) := by
  rw [updateEntry_eq_map] at h
  obtain ⟨q, hq, hpr⟩ := List.mem_map.mp h
  exact ⟨q, hq, hpr.symm⟩

theorem lookupList_of_mem_nodup {l : List (Nat × ThoughtNode)} {i : Nat} {v : ThoughtNode}
    (hnd : (l.map Prod.fst).Nodup) (h : (i, v) ∈ l) : lookupList l i = some v := by
  induction l with
  | nil => simp at h
  | cons hd tl ih =>
    obtain ⟨k, w⟩ := hd
    simp only [List.map_cons, List.nodup_cons] at hnd
    rcases List.mem_cons.mp h with heq | hmem
    · injection heq with e1 e2
      subst e1; subst e2
      simp [lookupList]
    · have hne : k ≠ i := by
        intro hk
        subst hk
        exact hnd.1 (List.mem_map.mpr ⟨(k, v), hmem, rfl⟩)
      simp only [lookupList, if_neg hne]
      exact ih hnd.2 hmem

theorem treeInv_map (g : BrainGraph) (F : Nat → ThoughtNode → ThoughtNode)
    (hch : ∀ k n, (F k n).children_ids = n.children_ids)
    (hdep : ∀ k n, (F k n).depth = n.depth)
    (hpar : ∀ k n, (F k n).parent_id = n.parent_id)
    (hid : ∀ k n, (F k n).id = n.id)
    (hinv : TreeInv g) :
    TreeInv { g with nodes := g.nodes.map (fun pr => (pr.1, F pr.1 pr.2)) } := by
  obtain ⟨hfr, hnd, hidm, hst, hbr⟩ := hinv
  refine ⟨?_, ?_, ?_, ?_, ?_⟩
  · intro pr hpr
    obtain ⟨q, hq, hq2⟩ := List.mem_map.mp hpr
    subst hq2
    obtain ⟨hk, hc⟩ := hfr q hq
    refine ⟨hk, ?_⟩
    intro c hcmem
    rw [hch] at hcmem
    exact hc c hcmem
  · show (List.map Prod.fst (g.nodes.map _)).Nodup
    rw [List.map_map]
    exact hnd
  · intro pr hpr
    obtain ⟨q, hq, hq2⟩ := List.mem_map.mp hpr
    subst hq2
    rw [hid]
    exact hidm q hq
  · intro pr hpr p hp
    obtain ⟨q, hq, hq2⟩ := List.mem_map.mp hpr
    subst hq2
    rw [hpar] at hp
    obtain ⟨pn, hpn, hdepth, hcount⟩ := hst q hq p hp
    refine ⟨F p pn, ?_, ?_, ?_⟩
    · show lookupList (g.nodes.map _) p = some (F p pn)
      rw [lookupList_map, hpn]
      rfl
    · rw [hdep, hdep]
      exact hdepth
    · rw [hch]
      exact hcount
  · intro pr hpr
    obtain ⟨q, hq, hq2⟩ := List.mem_map.mp hpr
    subst hq2
    show (F q.1 q.2).children_ids.length ≤ g.max_branches
    rw [hch]
    exact hbr q hq

theorem treeInv_update_score (g : BrainGraph) (i : Nat) (s : Rat)
    (hinv : TreeInv g) : TreeInv (update_score g i s) := by
  unfold update_score
  cases h : lookupList g.nodes i with
  | none => exact hinv
  | some n =>
    exact treeInv_map g (fun k m => if k = i then { m with score := s } else m)
      (by intro k m; by_cases hk : k = i <;> simp [hk])
      (by intro k m; by_cases hk : k = i <;> simp [hk])
      (by intro k m; by_cases hk : k = i <;> simp [hk])
      (by intro k m; by_cases hk : k = i <;> simp [hk])
      hinv

theorem treeInv_prune (g : BrainGraph) (t : Option Rat)
    (hinv : TreeInv g) : TreeInv (prune_low_scoring g t) := by
  unfold prune_low_scoring
  exact treeInv_map g (fun _ m => pruneNode (t.getD g.prune_threshold) m)
    (by intro k m; simp only [pruneNode]; split <;> rfl)
    (by intro k m; simp only [pruneNode]; split <;> rfl)
    (by intro k m; simp only [pruneNode]; split <;> rfl)
    (by intro k m; simp only [pruneNode]; split <;> rfl)
    hinv

theorem treeInv_create_root (g : BrainGraph) (c : String) (s : Rat)
    (hinv : TreeInv g) : TreeInv (create_root g c s).1 := by
  obtain ⟨hfr, hnd, hidm, hst, hbr⟩ := hinv
  unfold create_root
  refine ⟨?_, ?_, ?_, ?_, ?_⟩
  · intro pr hpr
    rcases List.mem_append.mp hpr with hold | hnew
    · obtain ⟨hk, hc⟩ := hfr pr hold
      exact ⟨Nat.lt_succ_of_lt hk, fun ch hch => Nat.lt_succ_of_lt (hc ch hch)⟩
    · rw [List.mem_singleton.mp hnew]
      exact ⟨Nat.lt_succ_self _, by intro ch hch; simp at hch⟩
  · show (List.map Prod.fst (g.nodes ++ _)).Nodup
    rw [List.map_append]
    rw [List.nodup_append]
    refine ⟨hnd, List.nodup_singleton _, ?_⟩
    intro a ha hb
    rw [List.mem_singleton.mp hb] at ha
    obtain ⟨q, hq, hq2⟩ := List.mem_map.mp ha
    exact absurd (hq2 ▸ (hfr q hq).1) (Nat.lt_irrefl _)
  · intro pr hpr
    rcases List.mem_append.mp hpr with hold | hnew
    · exact hidm pr hold
    · rw [List.mem_singleton.mp hnew]
  · intro pr hpr p hp
    rcases List.mem_append.mp hpr with hold | hnew
    · obtain ⟨pn, hpn, hdepth, hcount⟩ := hst pr hold p hp
      exact ⟨pn, lookupList_append_some hpn, hdepth, hcount⟩
    · rw [List.mem_singleton.mp hnew] at hp
      simp at hp
  · intro pr hpr
    rcases List.mem_append.mp hpr with hold | hnew
    · exact hbr pr hold
    · rw [List.mem_singleton.mp hnew]
      exact Nat.zero_le _

theorem add_child_eq_notFound (g : BrainGraph) (pid : Nat) (c : String) (s : Rat)
    (md : List (String × String)) (hp : lookupList g.nodes pid = none) :
    add_child g pid c s md = (g, Except.error TreeError.notFound) := by
  unfold add_child
  rw [hp]

theorem add_child_eq_branch (g : BrainGraph) (pid : Nat) (c : String) (s : Rat)
    (md : List (String × String)) (parent : ThoughtNode)
    (hp : lookupList g.nodes pid = some parent)
    (hb : g.max_branches ≤ parent.children_ids.length) :
    add_child g pid c s md = (g, Except.error TreeError.branchLimitExceeded) := by
  unfold add_child
  split
  · next heq => rw [hp] at heq; simp at heq
  · next parent' heq =>
    rw [hp] at heq
    injection heq with heq
    subst heq
    rw [if_pos hb]

theorem add_child_eq_depth (g : BrainGraph) (pid : Nat) (c : String) (s : Rat)
    (md : List (String × String)) (parent : ThoughtNode)
    (hp : lookupList g.nodes pid = some parent)
    (hb : parent.children_ids.length < g.max_branches)
    (hdp : g.max_depth ≤ parent.depth) :
    add_child g pid c s md = (g, Except.error TreeError.depthLimitExceeded) := by
  unfold add_child
  split
  · next heq => rw [hp] at heq; simp at heq
  · next parent' heq =>
    rw [hp] at heq
    injection heq with heq
    subst heq
    rw [if_neg (Nat.not_le.mpr hb), if_pos hdp]

theorem add_child_eq_success (g : BrainGraph) (pid : Nat) (c : String) (s : Rat)
    (md : List (String × String)) (parent : ThoughtNode)
    (hp : lookupList g.nodes pid = some parent)
    (hb : parent.children_ids.length < g.max_branches)
    (hdp : parent.depth < g.max_depth) :
    add_child g pid c s md =
      ({ g with
          nodes := updateEntry g.nodes pid
                     (fun p => { p with children_ids := p.children_ids ++ [g.next_id] })
                   ++ [(g.next_id,
                        ⟨g.next_id, c, some pid, [], NodeState.active, s,
                         parent.depth + 1, md⟩)]
          next_id := g.next_id + 1 }, Except.ok g.next_id) := by
  unfold add_child
  split
  · next heq => rw [hp] at heq; simp at heq
  · next parent' heq =>
    rw [hp] at heq
    injection heq with heq
    subst heq
    rw [if_neg (Nat.not_le.mpr hb), if_neg (Nat.not_le.mpr hdp)]

theorem treeInv_add_child (g : BrainGraph) (pid : Nat) (c : String) (s : Rat)
    (md : List (String × String)) (hinv : TreeInv g) :
    TreeInv (add_child g pid c s md).1 := by
  obtain ⟨hfr, hnd, hidm, hst, hbr⟩ := hinv
  cases hp : lookupList g.nodes pid with
  | none =>
    rw [add_child_eq_notFound g pid c s md hp]
    exact ⟨hfr, hnd, hidm, hst, hbr⟩
  | some parent =>
    by_cases hb : g.max_branches ≤ parent.children_ids.length
    · rw [add_child_eq_branch g pid c s md parent hp hb]
      exact ⟨hfr, hnd, hidm, hst, hbr⟩
    · by_cases hdp : g.max_depth ≤ parent.depth
      · rw [add_child_eq_depth g pid c s md parent hp (Nat.lt_of_not_le hb) hdp]
        exact ⟨hfr, hnd, hidm, hst, hbr⟩
      · rw [add_child_eq_success g pid c s md parent hp (Nat.lt_of_not_le hb)
              (Nat.lt_of_not_le hdp)]
        show TreeInv
          { g with
              nodes := updateEntry g.nodes pid
                         (fun p => { p with children_ids := p.children_ids ++ [g.next_id] })
                       ++ [(g.next_id,
                            ⟨g.next_id, c, some pid, [], NodeState.active, s,
                             parent.depth + 1, md⟩)]
              next_id := g.next_id + 1 }
        have hpm : (pid, parent) ∈ g.nodes := lookupList_mem hp
        have hnidch : g.next_id ∉ parent.children_ids := by
          intro hmem
          exact absurd ((hfr _ hpm).2 _ hmem) (Nat.lt_irrefl _)
        refine ⟨?_, ?_, ?_, ?_, ?_⟩
        · intro pr hpr
          rcases List.mem_append.mp hpr with hu | hnew
          · obtain ⟨q, hq, hq2⟩ := mem_updateEntry hu
            subst hq2
            obtain ⟨hk, hc⟩ := hfr q hq
            refine ⟨Nat.lt_succ_of_lt hk, ?_⟩
            intro ch hch
            by_cases hqp : q.1 = pid
            · rw [if_pos hqp] at hch
              simp only at hch
              rcases List.mem_append.mp hch with hold | hone
              · exact Nat.lt_succ_of_lt (hc ch hold)
              · rw [List.mem_singleton.mp hone]
                exact Nat.lt_succ_self _
            · rw [if_neg hqp] at hch
              exact Nat.lt_succ_of_lt (hc ch hch)
          · rw [List.mem_singleton.mp hnew]
            exact ⟨Nat.lt_succ_self _, by intro ch hch; simp at hch⟩
        · show (List.map Prod.fst _).Nodup
          rw [List.map_append, updateEntry_keys, List.nodup_append]
          refine ⟨hnd, List.nodup_singleton _, ?_⟩
          intro a ha hb'
          rw [List.mem_singleton.mp hb'] at ha
          obtain ⟨q, hq, hq2⟩ := List.mem_map.mp ha
          exact absurd (hq2 ▸ (hfr q hq).1) (Nat.lt_irrefl _)
        · intro pr hpr
          rcases List.mem_append.mp hpr with hu | hnew
          · obtain ⟨q, hq, hq2⟩ := mem_updateEntry hu
            subst hq2
            by_cases hqp : q.1 = pid
            · rw [if_pos hqp]
              exact hidm q hq
            · rw [if_neg hqp]
              exact hidm q hq
          · rw [List.mem_singleton.mp hnew]
        · intro pr hpr p hpp
          rcases List.mem_append.mp hpr with hu | hnew
          · obtain ⟨q, hq, hq2⟩ := mem_updateEntry hu
            subst hq2
            have hparq : (if q.1 = pid
                then { q.2 with children_ids := q.2.children_ids ++ [g.next_id] }
                else q.2).parent_id = q.2.parent_id := by
              by_cases hqp : q.1 = pid
              · rw [if_pos hqp]
              · rw [if_neg hqp]
            rw [hparq] at hpp
            obtain ⟨pn, hpn, hdep, hcnt⟩ := hst q hq p hpp
            have hdepq : (if q.1 = pid
                then { q.2 with children_ids := q.2.children_ids ++ [g.next_id] }
                else q.2).depth = q.2.depth := by
              by_cases hqp : q.1 = pid
              · rw [if_pos hqp]
              · rw [if_neg hqp]
            have hq1ne : q.1 ≠ g.next_id := Nat.ne_of_lt (hfr q hq).1
            by_cases hppid : p = pid
            · subst hppid
              refine ⟨{ pn with children_ids := pn.children_ids ++ [g.next_id] }, ?_, ?_, ?_⟩
              · show lookupList _ p = _
                apply lookupList_append_some
                rw [lookupList_updateEntry_self, hpn]
                rfl
              · rw [hdepq]
                exact hdep
              · show List.count q.1 (pn.children_ids ++ [g.next_id]) = 1
                rw [List.count_append, hcnt]
                have : List.count q.1 [g.next_id] = 0 :=
                  List.count_eq_zero.mpr (by simp [hq1ne])
                rw [this]
            · refine ⟨pn, ?_, ?_, ?_⟩
              · apply lookupList_append_some
                rw [lookupList_updateEntry_ne hppid, hpn]
              · rw [hdepq]
                exact hdep
              · exact hcnt
          · rw [List.mem_singleton.mp hnew] at hpp ⊢
            have hppid : p = pid := by
              have h2 : pid = p := by simpa using hpp
              exact h2.symm
            subst hppid
            refine ⟨{ parent with children_ids := parent.children_ids ++ [g.next_id] },
                    ?_, ?_, ?_⟩
            · apply lookupList_append_some
              rw [lookupList_updateEntry_self, hp]
              rfl
            · rfl
            · show List.count g.next_id (parent.children_ids ++ [g.next_id]) = 1
              rw [List.count_append]
              rw [List.count_eq_zero.mpr hnidch]
              simp
        · intro pr hpr
          rcases List.mem_append.mp hpr with hu | hnew
          · obtain ⟨q, hq, hq2⟩ := mem_updateEntry hu
            subst hq2
            by_cases hqp : q.1 = pid
            · have hqparent : q.2 = parent := by
                have : lookupList g.nodes pid = some q.2 := by
                  apply lookupList_of_mem_nodup hnd
                  rw [← hqp]
                  exact hq
                rw [hp] at this
                injection this with h2
                exact h2.symm
              rw [if_pos hqp]
              show (q.2.children_ids ++ [g.next_id]).length ≤ g.max_branches
              rw [List.length_append, hqparent]
              simpa using Nat.succ_le_of_lt (Nat.lt_of_not_le hb)
            · rw [if_neg hqp]
              exact hbr q hq
          · rw [List.mem_singleton.mp hnew]
            exact Nat.zero_le _

theorem treeInv_applyOp (g : BrainGraph) (op : TreeOp) (hinv : TreeInv g) :
    TreeInv (applyOp g op) := by
  cases op with
  | createRoot c s => exact treeInv_create_root g c s hinv
  | addChild p c s md => exact treeInv_add_child g p c s md hinv
  | updateScore i s => exact treeInv_update_score g i s hinv
  | prune t => exact treeInv_prune g t hinv

theorem treeInv_applyOps (ops : List TreeOp) (g : BrainGraph) (hinv : TreeInv g) :
    TreeInv (applyOps ops g) := by
  induction ops generalizing g with
  | nil => exact hinv
  | cons op rest ih => exact ih (applyOp g op) (treeInv_applyOp g op hinv)

theorem treeInv_mk (d b : Nat) (t : Rat) : TreeInv (mkBrainGraph d b t) := by
  refine ⟨?_, ?_, ?_, ?_, ?_⟩ <;>
    simp [FreshBound, KeysNodup, IdMatch, StructOK, BranchOK, mkBrainGraph]

theorem update_score_eq_missing (g : BrainGraph) (i : Nat) (s : Rat)
    (hn : lookupList g.nodes i = none) : update_score g i s = g := by
  unfold update_score
  rw [hn]

theorem update_score_eq_found (g : BrainGraph) (i : Nat) (s : Rat) (n : ThoughtNode)
    (hn : lookupList g.nodes i = some n) :
    update_score g i s =
      { g with nodes := updateEntry g.nodes i (fun m => { m with score := s }) } := by
  unfold update_score
  split
  · next heq => rw [hn] at heq; simp at heq
  · rfl

/-- Refinement reference, following the spec's words ("fails if a root
already exists for this tree instance"): `createRoot` refuses a second
root.  Used only to exhibit that the source's `create_root` diverges
from this behavior; the source function is `create_root` above. -/
def create_root_asSpecified (g : BrainGraph) (content : String) (score : Rat) :
    Except Unit (BrainGraph × Nat) :=
  if g.root_id.isSome then Except.error ()
  else Except.ok (create_root g content score)

/-- C1 counterexample: on a tree that already has a root, a second
`create_root` call does not fail: it returns normally, adds a second
parentless depth-0 Completed node, and repoints `root_id` to it, while
the behavior the spec describes (`create_root_asSpecified`) errors on
the same concrete input. -/
theorem create_root_second_call_succeeds :
    create_root_asSpecified
        (create_root (mkBrainGraph 4 3 (1/5)) "first" 1).1 "second" 1
      = Except.error () ∧
    (create_root (create_root (mkBrainGraph 4 3 (1/5)) "first" 1).1 "second" 1).1
      ≠ (create_root (mkBrainGraph 4 3 (1/5)) "first" 1).1 ∧
    lookupList
        (create_root (create_root (mkBrainGraph 4 3 (1/5)) "first" 1).1 "second" 1).1.nodes
        1
      = some ⟨1, "second", none, [], NodeState.completed, 1, 0, []⟩ ∧
    (create_root (create_root (mkBrainGraph 4 3 (1/5)) "first" 1).1 "second" 1).1.root_id
      = some 1 ∧
    lookupList
        (create_root (create_root (mkBrainGraph 4 3 (1/5)) "first" 1).1 "second" 1).1.nodes
        0
      = some ⟨0, "first", none, [], NodeState.completed, 1, 0, []⟩ := by
  refine ⟨rfl, ?_, rfl, rfl, rfl⟩
  decide

/-- C1 (amended): `create_root` never fails.  Every call — including a
second call on a tree that already has a root — succeeds, appends a
fresh parentless node at depth 0 in state Completed carrying the given
content and score, and repoints `root_id` to it, keeping every existing
node in the mapping. -/
theorem create_root_always_succeeds (g : BrainGraph) (c : String) (s : Rat) :
    (create_root g c s).2 = g.next_id ∧
    (create_root g c s).1.nodes
      = g.nodes ++ [(g.next_id, ⟨g.next_id, c, none, [], NodeState.completed, s, 0, []⟩)] ∧
    (create_root g c s).1.root_id = some g.next_id ∧
    (create_root g c s).1.next_id = g.next_id + 1 := by
  exact ⟨rfl, rfl, rfl, rfl⟩

/-- C3: after any sequence of tree calls starting from a fresh tree
(failing calls leave the state unchanged, so in particular after any
sequence of individually succeeding `create_root` and `add_child`
calls), every node's id field equals its key, every non-root node's
depth is its parent's depth plus one and its id occurs exactly once in
its parent's child list, and no node has more than `max_branches`
children. -/
theorem depth_and_branch_invariant (d b : Nat) (t : Rat) (ops : List TreeOp) :
    IdMatch (applyOps ops (mkBrainGraph d b t)) ∧
    StructOK (applyOps ops (mkBrainGraph d b t)) ∧
    BranchOK (applyOps ops (mkBrainGraph d b t)) := by
  obtain ⟨h1, h2, h3, h4, h5⟩ := treeInv_applyOps ops (mkBrainGraph d b t) (treeInv_mk d b t)
  exact ⟨h3, h4, h5⟩

/-- C4: `add_child` fails with NotFound when the parent id is absent,
with BranchLimitExceeded when the (found) parent already has
`max_branches` children, and with DepthLimitExceeded when the (found,
not branch-saturated) parent sits at depth at least `max_depth` — the
three checks apply in the source's order — and on every such failure the
returned tree is exactly the input tree, unchanged. -/
theorem add_child_failure_cases (g : BrainGraph) (pid : Nat) (c : String) (s : Rat)
    (md : List (String × String)) :
    (lookupList g.nodes pid = none →
       add_child g pid c s md = (g, Except.error TreeError.notFound)) ∧
    (∀ parent ∈ lookupList g.nodes pid,
       g.max_branches ≤ parent.children_ids.length →
         add_child g pid c s md = (g, Except.error TreeError.branchLimitExceeded)) ∧
    (∀ parent ∈ lookupList g.nodes pid,
       parent.children_ids.length < g.max_branches →
         g.max_depth ≤ parent.depth →
           add_child g pid c s md = (g, Except.error TreeError.depthLimitExceeded)) :=
  ⟨fun hp => add_child_eq_notFound g pid c s md hp,
   fun parent hp hb => add_child_eq_branch g pid c s md parent hp hb,
   fun parent hp hb hdp => add_child_eq_depth g pid c s md parent hp hb hdp⟩

/-- C4 witness: the three failure modes observed at concrete inputs via
the theorem. -/
theorem add_child_failure_cases_witness :
    add_child (mkBrainGraph 2 1 0) 5 "x" 0 []
      = (mkBrainGraph 2 1 0, Except.error TreeError.notFound) ∧
    add_child (create_root (mkBrainGraph 2 0 0) "r" 1).1 0 "x" 0 []
      = ((create_root (mkBrainGraph 2 0 0) "r" 1).1,
         Except.error TreeError.branchLimitExceeded) ∧
    add_child (create_root (mkBrainGraph 0 3 0) "r" 1).1 0 "x" 0 []
      = ((create_root (mkBrainGraph 0 3 0) "r" 1).1,
         Except.error TreeError.depthLimitExceeded) := by
  refine ⟨?_, ?_, ?_⟩
  · exact (add_child_failure_cases (mkBrainGraph 2 1 0) 5 "x" 0 []).1 rfl
  · exact (add_child_failure_cases (create_root (mkBrainGraph 2 0 0) "r" 1).1 0 "x" 0 []).2.1
      ⟨0, "r", none, [], NodeState.completed, 1, 0, []⟩ rfl (by decide)
  · exact (add_child_failure_cases (create_root (mkBrainGraph 0 3 0) "r" 1).1 0 "x" 0 []).2.2
      ⟨0, "r", none, [], NodeState.completed, 1, 0, []⟩ rfl (by decide) (by decide)

/-- C10: `update_score` on an absent id raises nothing and returns the
graph unchanged; on a present id it replaces exactly that node's score,
leaving the node's other fields (captured by the record update), every
other node's entry, and every remaining graph field unchanged. -/
theorem update_score_frame (g : BrainGraph) (i : Nat) (s : Rat) :
    (lookupList g.nodes i = none → update_score g i s = g) ∧
    (∀ n ∈ lookupList g.nodes i,
       lookupList (update_score g i s).nodes i = some { n with score := s } ∧
       (∀ j, j ≠ i → lookupList (update_score g i s).nodes j = lookupList g.nodes j) ∧
       (update_score g i s).root_id = g.root_id ∧
       (update_score g i s).max_depth = g.max_depth ∧
       (update_score g i s).max_branches = g.max_branches ∧
       (update_score g i s).prune_threshold = g.prune_threshold ∧
       (update_score g i s).next_id = g.next_id) := by
  constructor
  · exact update_score_eq_missing g i s
  · intro n hn
    rw [update_score_eq_found g i s n hn]
    refine ⟨?_, ?_, rfl, rfl, rfl, rfl, rfl⟩
    · rw [lookupList_updateEntry_self, hn]
      rfl
    · intro j hj
      show lookupList (updateEntry g.nodes i fun m => { m with score := s }) j
        = lookupList g.nodes j
      exact lookupList_updateEntry_ne hj

/-- C10 witness: both arms of the frame condition observed on a concrete
one-node tree via the theorem. -/
theorem update_score_frame_witness :
    (update_score (create_root (mkBrainGraph 4 3 (1/5)) "r" 1).1 9 (1/2)
       = (create_root (mkBrainGraph 4 3 (1/5)) "r" 1).1) ∧
    lookupList
        (update_score (create_root (mkBrainGraph 4 3 (1/5)) "r" 1).1 0 (1/2)).nodes 0
      = some ⟨0, "r", none, [], NodeState.completed, 1/2, 0, []⟩ := by
  constructor
  · exact (update_score_frame (create_root (mkBrainGraph 4 3 (1/5)) "r" 1).1 9 (1/2)).1 rfl
  · exact ((update_score_frame (create_root (mkBrainGraph 4 3 (1/5)) "r" 1).1 0 (1/2)).2
      ⟨0, "r", none, [], NodeState.completed, 1, 0, []⟩ rfl).1

theorem scoresOK_applyOp (g : BrainGraph) (op : TreeOp)
    (hg : ScoresOK g) (hop : opScoreInRange op) : ScoresOK (applyOp g op) := by
  cases op with
  | createRoot c s =>
    intro pr hpr
    have hpr' : pr ∈ g.nodes
        ++ [(g.next_id, ⟨g.next_id, c, none, [], NodeState.completed, s, 0, []⟩)] := hpr
    rcases List.mem_append.mp hpr' with hold | hnew
    · exact hg pr hold
    · rw [List.mem_singleton.mp hnew]
      exact hop
  | addChild pid c s md =>
    show ScoresOK (add_child g pid c s md).1
    cases hp : lookupList g.nodes pid with
    | none =>
      rw [add_child_eq_notFound g pid c s md hp]
      exact hg
    | some parent =>
      by_cases hb : g.max_branches ≤ parent.children_ids.length
      · rw [add_child_eq_branch g pid c s md parent hp hb]
        exact hg
      · by_cases hdp : g.max_depth ≤ parent.depth
        · rw [add_child_eq_depth g pid c s md parent hp (Nat.lt_of_not_le hb) hdp]
          exact hg
        · rw [add_child_eq_success g pid c s md parent hp (Nat.lt_of_not_le hb)
                (Nat.lt_of_not_le hdp)]
          intro pr hpr
          rcases List.mem_append.mp hpr with hu | hnew
          · obtain ⟨q, hq, hq2⟩ := mem_updateEntry hu
            subst hq2
            have hgq := hg q hq
            by_cases hqp : q.1 = pid
            · rw [if_pos hqp]
              exact hgq
            · rw [if_neg hqp]
              exact hgq
          · rw [List.mem_singleton.mp hnew]
            exact hop
  | updateScore i s =>
    show ScoresOK (update_score g i s)
    cases hn : lookupList g.nodes i with
    | none =>
      rw [update_score_eq_missing g i s hn]
      exact hg
    | some n =>
      rw [update_score_eq_found g i s n hn]
      intro pr hpr
      have hpr' : pr ∈ updateEntry g.nodes i (fun m => { m with score := s }) := hpr
      obtain ⟨q, hq, hq2⟩ := mem_updateEntry hpr'
      subst hq2
      by_cases hqp : q.1 = i
      · rw [if_pos hqp]
        exact hop
      · rw [if_neg hqp]
        exact hg q hq
  | prune t =>
    intro pr hpr
    have hpr' : pr ∈ g.nodes.map
        (fun q => (q.1, pruneNode (t.getD g.prune_threshold) q.2)) := hpr
    obtain ⟨q, hq, hq2⟩ := List.mem_map.mp hpr'
    subst hq2
    have hgq := hg q hq
    show 0 ≤ (pruneNode _ q.2).score ∧ (pruneNode _ q.2).score ≤ 1
    simp only [pruneNode]
    split
    · exact hgq
    · exact hgq

/-- C9 counterexample: the code never validates caller-supplied scores,
so a call sequence can drive a node's score outside the unit interval:
after creating a root and calling `update_score` with score 2, the
stored score is 2. -/
theorem scores_can_leave_unit_interval :
    ¬ ScoresOK (applyOps [TreeOp.createRoot "q" 1, TreeOp.updateScore 0 2]
        (mkBrainGraph 4 3 (1/5))) := by
  decide

/-- C9 (amended): scores are caller-supplied and unvalidated, so the
unit-interval invariant holds exactly when every caller-supplied score is
in the unit interval: under that hypothesis, after any call sequence
from a fresh tree every stored score lies in the closed interval from 0
to 1. -/
theorem scores_in_range_of_ops_in_range (d b : Nat) (t : Rat) (ops : List TreeOp)
    (h : ∀ op ∈ ops, opScoreInRange op) :
    ScoresOK (applyOps ops (mkBrainGraph d b t)) := by
  have base : ScoresOK (mkBrainGraph d b t) := by
    intro pr hpr
    simp [mkBrainGraph] at hpr
  have step : ∀ (g : BrainGraph) (l : List TreeOp), ScoresOK g →
      (∀ op ∈ l, opScoreInRange op) → ScoresOK (applyOps l g) := by
    intro g l
    induction l generalizing g with
    | nil => intro hg _; exact hg
    | cons op rest ih =>
      intro hg hl
      exact ih (applyOp g op) (scoresOK_applyOp g op hg (hl op (List.mem_cons_self _ _)))
        (fun o ho => hl o (List.mem_cons_of_mem _ ho))
  exact step (mkBrainGraph d b t) ops base h

/-- C9 witness: a concrete in-range call sequence, with the hypothesis
discharged by evaluation. -/
theorem scores_in_range_witness :
    (∀ op ∈ [TreeOp.createRoot "q" 1, TreeOp.addChild 0 "c" 0 [],
             TreeOp.updateScore 1 1, TreeOp.prune (some 1)],
       opScoreInRange op) ∧
    ScoresOK (applyOps [TreeOp.createRoot "q" 1, TreeOp.addChild 0 "c" 0 [],
             TreeOp.updateScore 1 1, TreeOp.prune (some 1)]
        (mkBrainGraph 4 3 1)) :=
  ⟨by decide,
   scores_in_range_of_ops_in_range 4 3 1
     [TreeOp.createRoot "q" 1, TreeOp.addChild 0 "c" 0 [],
      TreeOp.updateScore 1 1, TreeOp.prune (some 1)]
     (by decide)⟩

theorem pruneNode_idem (th : Rat) (n : ThoughtNode) :
    pruneNode th (pruneNode th n) = pruneNode th n := by
  unfold pruneNode
  by_cases h : n.score < th ∧ n.state ≠ NodeState.pruned
  · rw [if_pos h]
    rw [if_neg (by simp)]
  · rw [if_neg h, if_neg h]

theorem pruneNode_of_pruned (th : Rat) (n : ThoughtNode)
    (h : n.state = NodeState.pruned) : pruneNode th n = n := by
  unfold pruneNode
  rw [if_neg (by simp [h])]

theorem lookupList_prune (g : BrainGraph) (t : Option Rat) (i : Nat) :
    lookupList (prune_low_scoring g t).nodes i
      = (lookupList g.nodes i).map (pruneNode (t.getD g.prune_threshold)) := by
  show lookupList
      (g.nodes.map (fun pr => (pr.1, pruneNode (t.getD g.prune_threshold) pr.2))) i = _
  exact lookupList_map g.nodes (fun _ n => pruneNode (t.getD g.prune_threshold) n) i

/-- C6: pruning twice with the same threshold changes nothing the second
time (graph-level idempotence); pruning afterwards with any other
threshold (in particular a higher one) never turns a Pruned node back
into another state; and no pruning call removes a node from the
id-to-node mapping (the key list is untouched) or detaches it from its
parent (every node keeps its child list, parent link, id, score and
depth). -/
theorem prune_idempotent_monotone (g : BrainGraph) (t t' : Option Rat) :
    prune_low_scoring (prune_low_scoring g t) t = prune_low_scoring g t ∧
    (∀ i n, lookupList g.nodes i = some n → n.state = NodeState.pruned →
       lookupList (prune_low_scoring g t').nodes i = some n) ∧
    (prune_low_scoring g t').nodes.map Prod.fst = g.nodes.map Prod.fst ∧
    (∀ i n, lookupList g.nodes i = some n →
       ∃ n', lookupList (prune_low_scoring g t').nodes i = some n' ∧
         n'.children_ids = n.children_ids ∧ n'.parent_id = n.parent_id ∧
         n'.id = n.id ∧ n'.score = n.score ∧ n'.depth = n.depth) := by
  refine ⟨?_, ?_, ?_, ?_⟩
  · have hnodes : (prune_low_scoring g t).nodes.map
        (fun pr => (pr.1, pruneNode (t.getD g.prune_threshold) pr.2))
        = g.nodes.map (fun pr => (pr.1, pruneNode (t.getD g.prune_threshold) pr.2)) := by
      show (g.nodes.map (fun pr => (pr.1, pruneNode (t.getD g.prune_threshold) pr.2))).map
        (fun pr => (pr.1, pruneNode (t.getD g.prune_threshold) pr.2)) = _
      rw [List.map_map]
      apply List.map_congr_left
      intro a _
      show (a.1, pruneNode _ (pruneNode _ a.2)) = (a.1, pruneNode _ a.2)
      rw [pruneNode_idem]
    show ({ prune_low_scoring g t with
        nodes := (prune_low_scoring g t).nodes.map
          (fun pr => (pr.1, pruneNode (t.getD g.prune_threshold) pr.2)) } : BrainGraph)
      = prune_low_scoring g t
    rw [hnodes]
    rfl
  · intro i n hn hst
    rw [lookupList_prune, hn]
    show some (pruneNode _ n) = some n
    rw [pruneNode_of_pruned _ n hst]
  · show (g.nodes.map
        (fun pr => (pr.1, pruneNode (t'.getD g.prune_threshold) pr.2))).map Prod.fst
      = g.nodes.map Prod.fst
    rw [List.map_map]
    rfl
  · intro i n hn
    refine ⟨pruneNode (t'.getD g.prune_threshold) n, ?_, ?_, ?_, ?_, ?_, ?_⟩
    · rw [lookupList_prune, hn]
      rfl
    all_goals
      simp only [pruneNode]
      split <;> rfl

/-- C6 witness: on a concrete tree whose only node is already Pruned, a
later call with a higher threshold keeps it Pruned, in the mapping, and
structurally untouched (via the theorem). -/
theorem prune_idempotent_monotone_witness :
    lookupList (prune_low_scoring (prune_low_scoring
        (create_root (mkBrainGraph 3 2 1) "r" 0).1 none) (some 2)).nodes 0
      = some ⟨0, "r", none, [], NodeState.pruned, 0, 0, []⟩ ∧
    (∃ n', lookupList (prune_low_scoring (prune_low_scoring
        (create_root (mkBrainGraph 3 2 1) "r" 0).1 none) (some 2)).nodes 0 = some n' ∧
       n'.children_ids = ([] : List Nat) ∧ n'.parent_id = none ∧
       n'.id = 0 ∧ n'.score = 0 ∧ n'.depth = 0) := by
  constructor
  · exact (prune_idempotent_monotone (prune_low_scoring
      (create_root (mkBrainGraph 3 2 1) "r" 0).1 none) none (some 2)).2.1 0
      ⟨0, "r", none, [], NodeState.pruned, 0, 0, []⟩ rfl rfl
  · exact (prune_idempotent_monotone (prune_low_scoring
      (create_root (mkBrainGraph 3 2 1) "r" 0).1 none) none (some 2)).2.2.2 0
      ⟨0, "r", none, [], NodeState.pruned, 0, 0, []⟩ rfl

/-- `n` is the first element of maximal score in `l` (the deterministic
tie-break of Python `max`): everything before it scores strictly lower,
everything after it scores no higher. -/
def IsFirstMax (l : List ThoughtNode) (n : ThoughtNode) : Prop :=
  ∃ l₁ l₂, l = l₁ ++ n :: l₂ ∧ (∀ m ∈ l₁, m.score < n.score) ∧
    (∀ m ∈ l₂, m.score ≤ n.score)

theorem bestOf_cons (h x : ThoughtNode) (xs : List ThoughtNode) :
    bestOf h (x :: xs) = bestOf (if h.score < x.score then x else h) xs := rfl

theorem bestOf_isFirstMax :
    ∀ (t : List ThoughtNode) (h : ThoughtNode), IsFirstMax (h :: t) (bestOf h t) := by
  intro t
  induction t with
  | nil =>
    intro h
    exact ⟨[], [], rfl, by simp, by simp⟩
  | cons x xs ih =>
    intro h
    rw [bestOf_cons]
    by_cases hx : h.score < x.score
    · rw [if_pos hx]
      obtain ⟨l₁, l₂, heq, hlt, hle⟩ := ih x
      cases l₁ with
      | nil =>
        simp only [List.nil_append] at heq
        injection heq with hb hxs
        refine ⟨[h], l₂, ?_, ?_, hle⟩
        · rw [← hb, ← hxs]
          rfl
        · intro m hm
          rw [List.mem_singleton.mp hm, ← hb]
          exact hx
      | cons y l₁' =>
        simp only [List.cons_append] at heq
        injection heq with hy hxs
        rw [← hy] at hlt
        refine ⟨h :: x :: l₁', l₂, ?_, ?_, hle⟩
        · simp only [List.cons_append]
          rw [← hxs]
        · intro m hm
          rcases List.mem_cons.mp hm with hmh | hm'
          · subst hmh
            exact lt_trans hx (hlt x (List.mem_cons_self _ _))
          · exact hlt m hm'
    · rw [if_neg hx]
      obtain ⟨l₁, l₂, heq, hlt, hle⟩ := ih h
      cases l₁ with
      | nil =>
        simp only [List.nil_append] at heq
        injection heq with hb hxs
        refine ⟨[], x :: xs, ?_, by simp, ?_⟩
        · rw [← hb]
          rfl
        · intro m hm
          rcases List.mem_cons.mp hm with hmx | hm'
          · subst hmx
            rw [← hb]
            exact le_of_not_lt hx
          · rw [hxs] at hm'
            exact hle m hm'
      | cons y l₁' =>
        simp only [List.cons_append] at heq
        injection heq with hy hxs
        rw [← hy] at hlt
        refine ⟨h :: x :: l₁', l₂, ?_, ?_, hle⟩
        · simp only [List.cons_append]
          rw [← hxs]
        · intro m hm
          rcases List.mem_cons.mp hm with hmh | hm'
          · rw [hmh]
            exact hlt h (List.mem_cons_self _ _)
          · rcases List.mem_cons.mp hm' with hmx | hm''
            · rw [hmx]
              exact lt_of_le_of_lt (le_of_not_lt hx) (hlt h (List.mem_cons_self _ _))
            · exact hlt m (List.mem_cons_of_mem _ hm'')

theorem isFirstMax_mem {l : List ThoughtNode} {n : ThoughtNode}
    (h : IsFirstMax l n) : n ∈ l := by
  obtain ⟨l₁, l₂, heq, _, _⟩ := h
  rw [heq]
  exact List.mem_append.mpr (Or.inr (List.mem_cons_self _ _))

theorem isFirstMax_ge {l : List ThoughtNode} {n : ThoughtNode}
    (h : IsFirstMax l n) : ∀ m ∈ l, m.score ≤ n.score := by
  obtain ⟨l₁, l₂, heq, hlt, hle⟩ := h
  intro m hm
  rw [heq] at hm
  rcases List.mem_append.mp hm with h1 | h2
  · exact le_of_lt (hlt m h1)
  · rcases List.mem_cons.mp h2 with rfl | h3
    · exact le_refl _
    · exact hle m h3

theorem mem_get_leaves {g : BrainGraph} {n : ThoughtNode}
    (h : n ∈ get_leaves g true) :
    n ∈ g.nodes.map Prod.snd ∧ n.children_ids = [] ∧ n.state ≠ NodeState.pruned := by
  unfold get_leaves at h
  rw [if_pos rfl] at h
  obtain ⟨h1, hq⟩ := List.mem_filter.mp h
  obtain ⟨h2, hp⟩ := List.mem_filter.mp h1
  exact ⟨h2, List.isEmpty_iff.mp hp, of_decide_eq_true hq⟩

theorem get_leaves_empty_iff (g : BrainGraph) :
    get_leaves g true = [] ↔
      ∀ pr ∈ g.nodes, pr.2.children_ids = [] → pr.2.state = NodeState.pruned := by
  unfold get_leaves
  rw [if_pos rfl]
  rw [List.filter_eq_nil_iff]
  constructor
  · intro h pr hpr hch
    by_contra hst
    have hmem : pr.2 ∈ (g.nodes.map Prod.snd).filter
        (fun n => n.children_ids.isEmpty) := by
      rw [List.mem_filter]
      exact ⟨List.mem_map.mpr ⟨pr, hpr, rfl⟩, by rw [hch]; rfl⟩
    exact h pr.2 hmem (by simpa using hst)
  · intro h n hn
    obtain ⟨h1, hp⟩ := List.mem_filter.mp hn
    obtain ⟨pr, hpr, hpr2⟩ := List.mem_map.mp h1
    subst hpr2
    have := h pr hpr (List.isEmpty_iff.mp hp)
    simp [this]

theorem get_best_leaf_eq_none_iff (g : BrainGraph) :
    get_best_leaf g = none ↔ get_leaves g true = [] := by
  unfold get_best_leaf
  cases h : get_leaves g true with
  | nil => simp
  | cons hh tt => simp

/-- C5: `get_best_leaf` returns `none` exactly when every childless node
is Pruned (so in particular on the empty tree and when all leaves are
pruned); when it returns a node, that node is a non-pruned leaf whose
score is maximal among the non-pruned leaves and which is the first
such leaf in insertion (= creation) order — Python `max` keeps the
earliest of tied maxima; and on a tree holding only a root it returns
the root itself. -/
theorem get_best_leaf_spec :
    (∀ g : BrainGraph,
      (get_best_leaf g = none ↔
        ∀ pr ∈ g.nodes, pr.2.children_ids = [] → pr.2.state = NodeState.pruned) ∧
      (∀ n, get_best_leaf g = some n →
        n.children_ids = [] ∧ n.state ≠ NodeState.pruned ∧
        (∀ m ∈ get_leaves g true, m.score ≤ n.score) ∧
        IsFirstMax (get_leaves g true) n)) ∧
    (∀ (d b : Nat) (t : Rat) (c : String) (s : Rat),
      get_best_leaf (create_root (mkBrainGraph d b t) c s).1
        = some ⟨0, c, none, [], NodeState.completed, s, 0, []⟩) := by
  constructor
  · intro g
    constructor
    · rw [get_best_leaf_eq_none_iff]
      exact get_leaves_empty_iff g
    · intro n hn
      unfold get_best_leaf at hn
      cases hl : get_leaves g true with
      | nil =>
        rw [hl] at hn
        simp at hn
      | cons hh tt =>
        rw [hl] at hn
        injection hn with hn
        subst hn
        have hfm : IsFirstMax (hh :: tt) (bestOf hh tt) := bestOf_isFirstMax tt hh
        have hmem : bestOf hh tt ∈ get_leaves g true := by
          rw [hl]
          exact isFirstMax_mem hfm
        obtain ⟨_, hch, hst⟩ := mem_get_leaves hmem
        exact ⟨hch, hst, isFirstMax_ge hfm, hfm⟩
  · intro d b t c s
    rfl

/-- C5 witness: on a concrete root-only tree the returned best leaf is
the root, a non-pruned childless node that is the first maximum of the
leaf list (via the theorem). -/
theorem get_best_leaf_spec_witness :
    (⟨0, "r", none, [], NodeState.completed, 1, 0, []⟩ : ThoughtNode).children_ids = [] ∧
    (⟨0, "r", none, [], NodeState.completed, 1, 0, []⟩ : ThoughtNode).state
      ≠ NodeState.pruned ∧
    (∀ m ∈ get_leaves (create_root (mkBrainGraph 3 2 1) "r" 1).1 true,
      m.score ≤ (⟨0, "r", none, [], NodeState.completed, 1, 0, []⟩ : ThoughtNode).score) ∧
    IsFirstMax (get_leaves (create_root (mkBrainGraph 3 2 1) "r" 1).1 true)
      ⟨0, "r", none, [], NodeState.completed, 1, 0, []⟩ :=
  (get_best_leaf_spec.1 (create_root (mkBrainGraph 3 2 1) "r" 1).1).2
    ⟨0, "r", none, [], NodeState.completed, 1, 0, []⟩ rfl

theorem pathLoop_step (g : BrainGraph) (i fuel : Nat) (n : ThoughtNode)
    (hlk : lookupList g.nodes i = some n) :
    pathLoop g i (fuel + 1) =
      match n.parent_id with
      | none => [n]
      | some p => pathLoop g p fuel ++ [n] := by
  conv_lhs => unfold pathLoop
  rw [hlk]

theorem pathLoop_spec (g : BrainGraph) (hst : StructOK g) (hid : IdMatch g)
    (hroot1 : ∀ pr ∈ g.nodes, pr.2.parent_id = none → g.root_id = some pr.1) :
    ∀ (d : Nat), ∀ (i : Nat) (n : ThoughtNode),
      lookupList g.nodes i = some n → n.depth = d →
      pathLoop g i (d + 1) ≠ [] ∧
      (pathLoop g i (d + 1)).getLast? = some n ∧
      (∃ h0, (pathLoop g i (d + 1)).head? = some h0 ∧ h0.parent_id = none ∧
        g.root_id = some h0.id) ∧
      List.Chain' (fun a b => b.parent_id = some a.id) (pathLoop g i (d + 1)) := by
  intro d
  induction d with
  | zero =>
    intro i n hlk hdep
    cases hpar : n.parent_id with
    | none =>
      have heq : pathLoop g i 1 = [n] := by
        rw [pathLoop_step g i 0 n hlk, hpar]
      rw [heq]
      refine ⟨by simp, rfl, ⟨n, rfl, hpar, ?_⟩, List.chain'_singleton n⟩
      have h1 := hroot1 (i, n) (lookupList_mem hlk) hpar
      rw [h1, hid (i, n) (lookupList_mem hlk)]
    | some p =>
      obtain ⟨pn, hpn, hdepth, _⟩ := hst (i, n) (lookupList_mem hlk) p hpar
      rw [hdep] at hdepth
      exact absurd hdepth.symm (Nat.succ_ne_zero _)
  | succ d ih =>
    intro i n hlk hdep
    cases hpar : n.parent_id with
    | none =>
      have heq : pathLoop g i (d + 1 + 1) = [n] := by
        rw [pathLoop_step g i (d + 1) n hlk, hpar]
      rw [heq]
      refine ⟨by simp, rfl, ⟨n, rfl, hpar, ?_⟩, List.chain'_singleton n⟩
      have h1 := hroot1 (i, n) (lookupList_mem hlk) hpar
      rw [h1, hid (i, n) (lookupList_mem hlk)]
    | some p =>
      obtain ⟨pn, hpn, hdepth, _⟩ := hst (i, n) (lookupList_mem hlk) p hpar
      have hpd : pn.depth = d := by
        rw [hdep] at hdepth
        omega
      obtain ⟨hne, hlast, ⟨h0, hhead, h0par, h0root⟩, hchain⟩ := ih p pn hpn hpd
      have heq : pathLoop g i (d + 1 + 1) = pathLoop g p (d + 1) ++ [n] := by
        rw [pathLoop_step g i (d + 1) n hlk, hpar]
      rw [heq]
      refine ⟨by simp, ?_, ⟨h0, ?_, h0par, h0root⟩, ?_⟩
      · exact List.getLast?_concat _
      · cases hpath : pathLoop g p (d + 1) with
        | nil => exact absurd hpath hne
        | cons a l'' =>
          rw [hpath] at hhead
          have ha : a = h0 := by simpa using hhead
          simp [ha]
      · rw [List.chain'_append]
        refine ⟨hchain, List.chain'_singleton n, ?_⟩
        intro x hx y hy
        have hx' : x = pn := by
          rw [hlast] at hx
          exact (Option.mem_some_iff.mp hx).symm
        have hy' : n = y := by simpa using hy
        rw [hx', ← hy', hpar, hid (p, pn) (lookupList_mem hpn)]

/-- C8: on a well-rooted, structurally sound tree, `get_path_to_node` of
an absent id is the empty list; of a present id it is a nonempty list
ending at the requested node, starting at the (parentless) root, with
every consecutive pair linked parent-to-child; and when the requested id
is the root itself the list is exactly the singleton root. -/
theorem get_path_to_node_spec (g : BrainGraph)
    (hst : StructOK g) (hid : IdMatch g) (hwr : WellRooted g) :
    (∀ i, lookupList g.nodes i = none → get_path_to_node g i = []) ∧
    (∀ i n, lookupList g.nodes i = some n →
       get_path_to_node g i ≠ [] ∧
       (get_path_to_node g i).getLast? = some n ∧
       (∃ h0, (get_path_to_node g i).head? = some h0 ∧ h0.parent_id = none ∧
          g.root_id = some h0.id) ∧
       List.Chain' (fun a b => b.parent_id = some a.id) (get_path_to_node g i) ∧
       (g.root_id = some i → get_path_to_node g i = [n])) := by
  constructor
  · intro i h
    unfold get_path_to_node
    rw [h]
  · intro i n hlk
    have hmain := pathLoop_spec g hst hid hwr.1 n.depth i n hlk rfl
    have heq : get_path_to_node g i = pathLoop g i (n.depth + 1) := by
      unfold get_path_to_node
      rw [hlk]
    rw [heq]
    obtain ⟨h1, h2, h3, h4⟩ := hmain
    refine ⟨h1, h2, h3, h4, ?_⟩
    intro hrooti
    obtain ⟨rn, hrn, hrnpar⟩ := hwr.2 i hrooti
    have hrn2 : n.parent_id = none := by
      rw [hlk] at hrn
      have h5 : n = rn := by simpa using hrn
      rw [h5]
      exact hrnpar
    rw [pathLoop_step g i n.depth n hlk, hrn2]

/-- C8 witness: the full path contract observed on a concrete
root-plus-one-child tree (hypotheses discharged by evaluation). -/
theorem get_path_to_node_spec_witness :
    get_path_to_node
        (add_child (create_root (mkBrainGraph 3 2 1) "r" 1).1 0 "c" 1 []).1 1 ≠ [] ∧
    (get_path_to_node
        (add_child (create_root (mkBrainGraph 3 2 1) "r" 1).1 0 "c" 1 []).1 1).getLast?
      = some ⟨1, "c", some 0, [], NodeState.active, 1, 1, []⟩ ∧
    (∃ h0, (get_path_to_node
        (add_child (create_root (mkBrainGraph 3 2 1) "r" 1).1 0 "c" 1 []).1 1).head?
          = some h0 ∧ h0.parent_id = none ∧
       (add_child (create_root (mkBrainGraph 3 2 1) "r" 1).1 0 "c" 1 []).1.root_id
         = some h0.id) ∧
    List.Chain' (fun a b => b.parent_id = some a.id)
      (get_path_to_node
        (add_child (create_root (mkBrainGraph 3 2 1) "r" 1).1 0 "c" 1 []).1 1) ∧
    ((add_child (create_root (mkBrainGraph 3 2 1) "r" 1).1 0 "c" 1 []).1.root_id
        = some 1 →
      get_path_to_node (add_child (create_root (mkBrainGraph 3 2 1) "r" 1).1 0 "c" 1 []).1 1
        = [⟨1, "c", some 0, [], NodeState.active, 1, 1, []⟩]) :=
  (get_path_to_node_spec (add_child (create_root (mkBrainGraph 3 2 1) "r" 1).1 0 "c" 1 []).1
    (by decide) (by decide) (by decide)).2 1
    ⟨1, "c", some 0, [], NodeState.active, 1, 1, []⟩ rfl

theorem runLoop_succ (gen : Nat → String → String) (detect : String → String × Bool)
    (m iter : Nat) (chain : BrainText) :
    runLoop gen detect (m + 1) iter chain
      = (if (detect (gen iter chain.get_chain)).2
         then (SessionOutcome.finalized (detect (gen iter chain.get_chain)).1,
               chain.add_step (gen iter chain.get_chain), 1)
         else ((runLoop gen detect m (iter + 1)
                  (chain.add_step (gen iter chain.get_chain))).1,
               (runLoop gen detect m (iter + 1)
                  (chain.add_step (gen iter chain.get_chain))).2.1,
               (runLoop gen detect m (iter + 1)
                  (chain.add_step (gen iter chain.get_chain))).2.2 + 1)) := rfl

theorem runLoop_finalized (gen : Nat → String → String) (detect : String → String × Bool)
    (m iter : Nat) (chain : BrainText)
    (h : (detect (gen iter chain.get_chain)).2 = true) :
    runLoop gen detect (m + 1) iter chain
      = (SessionOutcome.finalized (detect (gen iter chain.get_chain)).1,
         chain.add_step (gen iter chain.get_chain), 1) := by
  rw [runLoop_succ, h, if_pos rfl]

theorem runLoop_notFinal_step (gen : Nat → String → String)
    (detect : String → String × Bool) (m iter : Nat) (chain : BrainText)
    (h : (detect (gen iter chain.get_chain)).2 = false) :
    runLoop gen detect (m + 1) iter chain
      = ((runLoop gen detect m (iter + 1)
            (chain.add_step (gen iter chain.get_chain))).1,
         (runLoop gen detect m (iter + 1)
            (chain.add_step (gen iter chain.get_chain))).2.1,
         (runLoop gen detect m (iter + 1)
            (chain.add_step (gen iter chain.get_chain))).2.2 + 1) := by
  rw [runLoop_succ, h, if_neg Bool.false_ne_true]

theorem runLoop_exhausted (gen : Nat → String → String)
    (detect : String → String × Bool) (hnf : ∀ s, (detect s).2 = false) :
    ∀ (m iter : Nat) (chain : BrainText),
      ∃ c' : BrainText,
        runLoop gen detect m iter chain
          = (SessionOutcome.exhausted (lastParagraph c'.get_chain), c', m) ∧
        c'.steps.length = chain.steps.length + m := by
  intro m
  induction m with
  | zero =>
    intro iter chain
    exact ⟨chain, rfl, rfl⟩
  | succ m ih =>
    intro iter chain
    obtain ⟨c', hc', hlen⟩ := ih (iter + 1) (chain.add_step (gen iter chain.get_chain))
    refine ⟨c', ?_, ?_⟩
    · rw [runLoop_notFinal_step gen detect m iter chain (hnf _), hc']
    · rw [hlen]
      show (chain.steps ++ [gen iter chain.get_chain]).length + m
        = chain.steps.length + (m + 1)
      rw [List.length_append]
      simp
      omega

theorem runLoop_calls_le (gen : Nat → String → String)
    (detect : String → String × Bool) :
    ∀ (m iter : Nat) (chain : BrainText),
      (runLoop gen detect m iter chain).2.2 ≤ m := by
  intro m
  induction m with
  | zero =>
    intro iter chain
    exact Nat.le.refl
  | succ m ih =>
    intro iter chain
    cases hd : (detect (gen iter chain.get_chain)).2 with
    | true =>
      rw [runLoop_finalized gen detect m iter chain hd]
      exact Nat.succ_le_succ (Nat.zero_le m)
    | false =>
      rw [runLoop_notFinal_step gen detect m iter chain hd]
      exact Nat.succ_le_succ (ih (iter + 1) _)

/-- C2: when the detector never marks a thought final, a session makes
exactly `MAX_COT_ITERATIONS = 4` generator calls, appends all four
thoughts, and ends Exhausted with fallback equal to the piece of the
rendered chain after its final blank-line separator (the last emitted
block of text) — the chain has no scores at all, so in particular the
fallback is not any highest-scored node. -/
theorem driver_exhausted_spec (gen : Nat → String → String)
    (detect : String → String × Bool) (hnf : ∀ s, (detect s).2 = false) :
    (runSession gen detect).1
      = SessionOutcome.exhausted
          (lastParagraph (runSession gen detect).2.1.get_chain) ∧
    (runSession gen detect).2.2 = MAX_COT_ITERATIONS ∧
    (runSession gen detect).2.1.steps.length = MAX_COT_ITERATIONS := by
  obtain ⟨c', hc', hlen⟩ :=
    runLoop_exhausted gen detect hnf MAX_COT_ITERATIONS 1 ⟨[]⟩
  unfold runSession
  rw [hc']
  refine ⟨rfl, rfl, ?_⟩
  rw [hlen]
  rfl

/-- C2 witness: a concrete never-final generator and detector, run
through the theorem. -/
theorem driver_exhausted_spec_witness :
    (runSession (fun _ _ => "thought") (fun s => (s, false))).1
      = SessionOutcome.exhausted
          (lastParagraph
            (runSession (fun _ _ => "thought") (fun s => (s, false))).2.1.get_chain) ∧
    (runSession (fun _ _ => "thought") (fun s => (s, false))).2.2
      = MAX_COT_ITERATIONS ∧
    (runSession (fun _ _ => "thought") (fun s => (s, false))).2.1.steps.length
      = MAX_COT_ITERATIONS :=
  driver_exhausted_spec (fun _ _ => "thought") (fun s => (s, false)) (fun _ => rfl)

/-- The chain contents after `k` iterations none of which was final. -/
def chainAfter (gen : Nat → String → String) : Nat → BrainText
  | 0 => ⟨[]⟩
  | k + 1 => (chainAfter gen k).add_step (gen (k + 1) (chainAfter gen k).get_chain)

/-- The thought the generator emits on iteration `i` (1-based) when no
earlier iteration was final. -/
def thoughtAt (gen : Nat → String → String) (i : Nat) : String :=
  gen i (chainAfter gen (i - 1)).get_chain

/-- C7: when the detector rejects the iteration 1-3 thoughts and accepts
the iteration-4 thought, the session ends Finalized with the answer
extracted from the iteration-4 thought after exactly 4 generator calls;
and every session, whatever the generator and detector, makes at most
its iteration-budget many generator calls. -/
theorem driver_finalized_spec (gen : Nat → String → String)
    (detect : String → String × Bool)
    (h1 : (detect (thoughtAt gen 1)).2 = false)
    (h2 : (detect (thoughtAt gen 2)).2 = false)
    (h3 : (detect (thoughtAt gen 3)).2 = false)
    (h4 : (detect (thoughtAt gen 4)).2 = true) :
    runSession gen detect
      = (SessionOutcome.finalized (detect (thoughtAt gen 4)).1, chainAfter gen 4, 4) ∧
    (∀ (gen' : Nat → String → String) (detect' : String → String × Bool)
       (m iter : Nat) (chain : BrainText),
       (runLoop gen' detect' m iter chain).2.2 ≤ m) := by
  constructor
  · have s4 : runLoop gen detect 1 4 (chainAfter gen 3)
        = (SessionOutcome.finalized (detect (thoughtAt gen 4)).1, chainAfter gen 4, 1) :=
      runLoop_finalized gen detect 0 4 (chainAfter gen 3) h4
    have s3 : runLoop gen detect 2 3 (chainAfter gen 2)
        = (SessionOutcome.finalized (detect (thoughtAt gen 4)).1, chainAfter gen 4, 2) := by
      have hstep : runLoop gen detect 2 3 (chainAfter gen 2)
          = ((runLoop gen detect 1 4 (chainAfter gen 3)).1,
             (runLoop gen detect 1 4 (chainAfter gen 3)).2.1,
             (runLoop gen detect 1 4 (chainAfter gen 3)).2.2 + 1) :=
        runLoop_notFinal_step gen detect 1 3 (chainAfter gen 2) h3
      rw [hstep, s4]
    have s2 : runLoop gen detect 3 2 (chainAfter gen 1)
        = (SessionOutcome.finalized (detect (thoughtAt gen 4)).1, chainAfter gen 4, 3) := by
      have hstep : runLoop gen detect 3 2 (chainAfter gen 1)
          = ((runLoop gen detect 2 3 (chainAfter gen 2)).1,
             (runLoop gen detect 2 3 (chainAfter gen 2)).2.1,
             (runLoop gen detect 2 3 (chainAfter gen 2)).2.2 + 1) :=
        runLoop_notFinal_step gen detect 2 2 (chainAfter gen 1) h2
      rw [hstep, s3]
    have s1 : runLoop gen detect 4 1 (chainAfter gen 0)
        = (SessionOutcome.finalized (detect (thoughtAt gen 4)).1, chainAfter gen 4, 4) := by
      have hstep : runLoop gen detect 4 1 (chainAfter gen 0)
          = ((runLoop gen detect 3 2 (chainAfter gen 1)).1,
             (runLoop gen detect 3 2 (chainAfter gen 1)).2.1,
             (runLoop gen detect 3 2 (chainAfter gen 1)).2.2 + 1) :=
        runLoop_notFinal_step gen detect 3 1 (chainAfter gen 0) h1
      rw [hstep, s2]
    exact s1
  · intro gen' detect' m iter chain
    exact runLoop_calls_le gen' detect' m iter chain

/-- C7 witness: a concrete generator that is final exactly on iteration
4, run through the theorem. -/
theorem driver_finalized_spec_witness :
    runSession (fun i _ => if i == 4 then "F" else "t")
        (fun s => (s, s == "F"))
      = (SessionOutcome.finalized
           (((fun s => (s, s == "F"))
              (thoughtAt (fun i _ => if i == 4 then "F" else "t") 4)).1),
         chainAfter (fun i _ => if i == 4 then "F" else "t") 4, 4) ∧
    (∀ (gen' : Nat → String → String) (detect' : String → String × Bool)
       (m iter : Nat) (chain : BrainText),
       (runLoop gen' detect' m iter chain).2.2 ≤ m) :=
  driver_finalized_spec (fun i _ => if i == 4 then "F" else "t")
    (fun s => (s, s == "F")) rfl rfl rfl rfl
